import Mathlib

/-!
Shallow embedding of the price-tracker widget (main.go): the configuration
bootstrap (loadSymbolsFromConfig, createDefaultConfig, parseSymbolsFromConfig)
and the price-refresh cycle (updatePrice, updateLabel), together with a model
of the JSON encoding and decoding that the Go code performs through
encoding/json, and a small-step model of the WaitGroup fan-out barrier used
by updatePrice.
-/

/-- The built-in default symbol list, var defaultSymbols in main.go. -/
def defaultSymbols : List String := ["BTC", "ETH", "SOL"]

/-! ## JSON whitespace and string scanning, modelling encoding/json -/

/-- Skip the JSON whitespace characters (space, tab, newline, carriage
return), as encoding/json does between tokens. -/
def skipWs : List Char → List Char
  | [] => []
  | c :: cs =>
    if c = ' ' ∨ c = '\t' ∨ c = '\n' ∨ c = '\r' then skipWs cs else c :: cs

/-- Scan the body of a JSON string after the opening quote: consume
characters up to the closing quote and return them with the rest of the
input.  Escape sequences are rejected (the symbols and prices this program
handles never contain them). -/
def parseStringBody : List Char → Option (List Char × List Char)
  | [] => none
  | c :: cs =>
    if c = '"' then some ([], cs)
    else if c = '\\' then none
    else
      match parseStringBody cs with
      | some sr => some (c :: sr.1, sr.2)
      | none => none

/-! ## Unmarshalling a JSON array into a Go pointer-slice

json.Unmarshal(byteValue, &symbols) with symbols : a slice of string
pointers decodes a JSON array whose elements are strings or null; a null
element becomes a nil pointer, modelled here as none. -/

/-- Parse one array element: a JSON string (some) or the literal null
(none, a nil string pointer). -/
def parseElem (cs : List Char) : Option (Option String × List Char) :=
  match skipWs cs with
  | '"' :: rest =>
    match parseStringBody rest with
    | some sr => some (some (String.mk sr.1), sr.2)
    | none => none
  | 'n' :: 'u' :: 'l' :: 'l' :: rest => some (none, rest)
  | _ => none

/-- Parse the elements of a non-empty JSON array after the opening bracket,
separated by commas and closed by a bracket.  The fuel argument bounds the
number of elements and makes the recursion structural. -/
def parseElemsAux : Nat → List Char → Option (List (Option String) × List Char)
  | 0, _ => none
  | fuel + 1, cs =>
    match parseElem cs with
    | none => none
    | some er =>
      match skipWs er.2 with
      | ',' :: rest2 =>
        match parseElemsAux fuel rest2 with
        | some esr => some (er.1 :: esr.1, esr.2)
        | none => none
      | ']' :: rest2 => some ([er.1], rest2)
      | _ => none

/-- json.Unmarshal of a byte string into a slice of string pointers:
succeeds on a JSON array of strings and nulls, fails (none) on anything
else. -/
def jsonUnmarshalStringPtrArray (content : String) : Option (List (Option String)) :=
  match skipWs content.data with
  | '[' :: rest =>
    match skipWs rest with
    | ']' :: rest2 => if skipWs rest2 = [] then some [] else none
    | r =>
      match parseElemsAux (r.length + 1) r with
      | some er => if skipWs er.2 = [] then some er.1 else none
      | none => none
  | _ => none

/-! ## Marshalling a string list, modelling json.Marshal of a Go string slice -/

/-- Encoding of one string element, quotes included (the symbols written by
this program need no escaping). -/
def encodeElem (s : String) : List Char := '"' :: s.data ++ ['"']

/-- Comma-separated encodings of the elements of a string list. -/
def encodeElems : List String → List Char
  | [] => []
  | [s] => encodeElem s
  | s :: ss => encodeElem s ++ ',' :: encodeElems ss

/-- json.Marshal of a string slice: the bracketed, comma-separated list of
quoted elements, with no added whitespace. -/
def jsonMarshalStringList (l : List String) : String :=
  String.mk ('[' :: encodeElems l ++ [']'])

/-! ## Decoding a flat JSON object into a Go map from string to string -/

/-- Parse one object member: a quoted key, a colon, and a quoted string
value. -/
def parseMember (cs : List Char) : Option ((String × String) × List Char) :=
  match skipWs cs with
  | '"' :: rest =>
    match parseStringBody rest with
    | some kr =>
      match skipWs kr.2 with
      | ':' :: rest3 =>
        match skipWs rest3 with
        | '"' :: rest4 =>
          match parseStringBody rest4 with
          | some vr => some ((String.mk kr.1, String.mk vr.1), vr.2)
          | none => none
        | _ => none
      | _ => none
    | none => none
  | _ => none

/-- Parse the members of a non-empty JSON object after the opening brace. -/
def parseMembersAux : Nat → List Char → Option (List (String × String) × List Char)
  | 0, _ => none
  | fuel + 1, cs =>
    match parseMember cs with
    | none => none
    | some kr =>
      match skipWs kr.2 with
      | ',' :: rest2 =>
        match parseMembersAux fuel rest2 with
        | some mr => some (kr.1 :: mr.1, mr.2)
        | none => none
      | '\x7d' :: rest2 => some ([kr.1], rest2)
      | _ => none

/-- json.Decoder.Decode into a Go map from string to string: succeeds on a
flat JSON object with string values (kept in member order) and on the
literal null (a nil map, which reads like an empty one), fails on anything
else. -/
def jsonDecodeStringMap (s : String) : Option (List (String × String)) :=
  match skipWs s.data with
  | '\x7b' :: rest =>
    match skipWs rest with
    | '\x7d' :: rest2 => if skipWs rest2 = [] then some [] else none
    | r =>
      match parseMembersAux (r.length + 1) r with
      | some mr => if skipWs mr.2 = [] then some mr.1 else none
      | none => none
  | 'n' :: 'u' :: 'l' :: 'l' :: rest => if skipWs rest = [] then some [] else none
  | _ => none

/-- Go map indexing data[key]: the value of the last member with that key,
or the empty string (the string zero value) when the key is absent. -/
def mapGet (data : List (String × String)) (key : String) : String :=
  (data.foldl (fun acc kv => if kv.1 = key then some kv.2 else acc) none).getD ""

/-! ## Price formatting, updateLabel lines 116 to 123 of main.go -/

/-- strings.TrimRight(price, "0"): remove every trailing zero character. -/
def trimRightZeros (s : String) : String :=
  String.mk ((s.data.reverse.dropWhile fun c => c == '0').reverse)

/-- The numeric formatting step of updateLabel: trim trailing zeros from the
whole raw string, then drop a trailing decimal point if one remains
(strings.HasSuffix(price, ".") followed by the slice price up to its last
byte). -/
def formatPrice (price : String) : String :=
  let p := trimRightZeros price
  if p.data.getLast? = some '.' then String.mk p.data.dropLast else p

/-! ## The configuration bootstrap, loadSymbolsFromConfig in main.go

The file system is abstracted by the outcome of os.Open on the fixed config
path, and by whether the best-effort os.WriteFile of the default config
succeeds.  Reading an already opened file (io.ReadAll) is modelled as
succeeding, so the read-failure error return of parseSymbolsFromConfig is
never taken; the fail constructor of LoadResult keeps that error channel of
the Go signature visible. -/

/-- Outcome of os.Open on the config path. -/
inductive OpenResult where
  | notExist
  | otherError (msg : String)
  | ok (content : String)
deriving DecidableEq

/-- What loadSymbolsFromConfig hands back: the pair of a symbol slice and a
nil error (ok), a non-nil error (fail), or a runtime panic from
dereferencing a nil string pointer. -/
inductive LoadResult where
  | ok (symbols : List String)
  | fail (msg : String)
  | panic
deriving DecidableEq

/-- Observable effects of one call to loadSymbolsFromConfig: its return
value, the content now present in a freshly created config file (none when
nothing was written), and the messages it printed. -/
structure LoadEffects where
  result : LoadResult
  written : Option String
  logs : List String
deriving DecidableEq

/-- createDefaultConfig: marshal defaultSymbols and write the file,
best-effort.  The value is the content of the created file, none when the
write failed. -/
def createDefaultConfig (writeOk : Bool) : Option String :=
  if writeOk then some (jsonMarshalStringList defaultSymbols) else none

/-- parseSymbolsFromConfig: read the whole file and json.Unmarshal it into
a slice of string pointers.  The Unmarshal error is discarded, so a content
that fails to decode leaves the slice at its nil zero value, an empty
list. -/
def parseSymbolsFromConfig (content : String) : List (Option String) :=
  (jsonUnmarshalStringPtrArray content).getD []

/-- The loop over stringPointers that builds the returned slice by
dereferencing each pointer: a nil pointer (none) makes it panic. -/
def derefAll : List (Option String) → Option (List String)
  | [] => some []
  | none :: _ => none
  | some s :: rest =>
    match derefAll rest with
    | some strs => some (s :: strs)
    | none => none

/-- loadSymbolsFromConfig: on a missing file, create the default config and
return defaultSymbols; on any other open error, print it and return
defaultSymbols; on an opened file, parse it and dereference every string
pointer. -/
def loadSymbolsFromConfig (openRes : OpenResult) (writeOk : Bool) : LoadEffects :=
  match openRes with
  | .notExist =>
    ⟨.ok defaultSymbols, createDefaultConfig writeOk,
      ["Config file not found, creating a new one with default symbols"]⟩
  | .otherError msg =>
    ⟨.ok defaultSymbols, none, ["Error opening config file: " ++ msg]⟩
  | .ok content =>
    match derefAll (parseSymbolsFromConfig content) with
    | some strs => ⟨.ok strs, none, []⟩
    | none => ⟨.panic, none, []⟩

/-! ## The refresh cycle, updatePrice and updateLabel in main.go -/

/-- Outcome of http.Get for one symbol: a transport error, or a response
body (the status code is never inspected by updateLabel). -/
inductive FetchOutcome where
  | getError (msg : String)
  | body (content : String)

/-- Stand-in for the error description produced by the Go json package when
Decode fails; only the Error-colon-space prefix around it is specified. -/
def jsonDecodeErrorText : String := "invalid JSON value"

/-- updateLabel for one symbol: format the Get error, or decode the body
into a string map and format data at key price, trailing zeros and a
trailing decimal point trimmed.  The value is the text written into the
symbol's label. -/
def updateLabel (symbol : String) (fetch : FetchOutcome) : String :=
  match fetch with
  | .getError msg => "Error: " ++ msg
  | .body content =>
    match jsonDecodeStringMap content with
    | none => "Error: " ++ jsonDecodeErrorText
    | some data => symbol ++ "/USDT: " ++ formatPrice (mapGet data "price")

/-- The per-cycle output of updatePrice: one label text per tracked symbol,
each produced from that symbol's own fetch outcome. -/
def updatePrice (symbols : List String) (fetch : String → FetchOutcome) :
    List (String × String) :=
  symbols.map fun s => (s, updateLabel s (fetch s))

/-! ## Small-step model of the WaitGroup barrier in updatePrice

updatePrice adds one to the WaitGroup and launches one goroutine per symbol
in loop order, each goroutine runs updateLabel for its own symbol and then
signals Done, and the main goroutine calls Wait after the loop.  A state
records how many goroutines have been launched, which have completed, the
label text each completed goroutine wrote, and whether Wait has returned.
Wait can return only once the launch loop has finished and the WaitGroup
counter is back to zero, that is, once every launched goroutine has
completed. -/

/-- State of one refresh cycle over n tracked symbols. -/
structure CycleState (n : Nat) where
  launched : Nat
  completed : Finset (Fin n)
  results : Fin n → Option String
  returned : Bool

/-- The state in which updatePrice starts: nothing launched, nothing
completed, no label written, Wait not yet returned. -/
def initCycle (n : Nat) : CycleState n :=
  ⟨0, ∅, fun _ => none, false⟩

/-- One interleaved step of the cycle: the main goroutine launches the next
goroutine in loop order, some launched goroutine finishes its updateLabel
call and signals Done, or Wait observes a zero counter after the loop and
returns. -/
inductive CycleStep (symbols : List String) (fetch : String → FetchOutcome) :
    CycleState symbols.length → CycleState symbols.length → Prop where
  | launch (s : CycleState symbols.length) (i : Fin symbols.length)
      (hl : s.launched = i.val) (hr : s.returned = false) :
      CycleStep symbols fetch s ⟨i.val + 1, s.completed, s.results, s.returned⟩
  | complete (s : CycleState symbols.length) (i : Fin symbols.length)
      (hi : i.val < s.launched) (hc : i ∉ s.completed) :
      CycleStep symbols fetch s
        ⟨s.launched, insert i s.completed,
          Function.update s.results i
            (some (updateLabel (symbols.get i) (fetch (symbols.get i)))),
          s.returned⟩
  | ret (s : CycleState symbols.length)
      (hl : s.launched = symbols.length)
      (hc : s.completed.card = symbols.length)
      (hr : s.returned = false) :
      CycleStep symbols fetch s ⟨s.launched, s.completed, s.results, true⟩

/-- The states one refresh cycle can reach from its start. -/
inductive CycleReach (symbols : List String) (fetch : String → FetchOutcome) :
    CycleState symbols.length → Prop where
  | init : CycleReach symbols fetch (initCycle symbols.length)
  | step (s t : CycleState symbols.length) :
      CycleReach symbols fetch s → CycleStep symbols fetch s t →
      CycleReach symbols fetch t

/-! ## Specification-side statement of the trimming step

These two functions follow the wording of the specification (strip trailing
zero characters; if a trailing decimal point remains after stripping, strip
that too) by forward recursion, to be compared with formatPrice, which
mirrors the source's TrimRight-and-suffix-check phrasing. -/

/-- Modelled from the spec: strip the trailing zero characters of a decimal
string. -/
def stripTrailingZeros : List Char → List Char
  | [] => []
  | c :: cs =>
    match stripTrailingZeros cs with
    | [] => if c == '0' then [] else [c]
    | r => c :: r

/-- Modelled from the spec: strip a trailing decimal point if one remains. -/
def stripTrailingDot : List Char → List Char
  | [] => []
  | [c] => if c == '.' then [] else [c]
  | c :: cs => c :: stripTrailingDot cs

/-! ## Concrete fixtures used by witnesses -/

/-- A fetch environment where BTC answers with a well-formed quote and every
other symbol times out. -/
def exFetch : String → FetchOutcome :=
  fun s => if s = "BTC" then .body "\x7b\"price\":\"50001\"\x7d" else .getError "timeout"

/-- A fetch environment where every request fails. -/
def exBarrierFetch : String → FetchOutcome := fun _ => .getError "boom"

/-- The cycle state after the single goroutine of a one-symbol refresh has
been launched. -/
def exBarrierS1 : CycleState (["BTC"] : List String).length :=
  ⟨1, ∅, fun _ => none, false⟩

/-- The cycle state after that goroutine has completed. -/
def exBarrierS2 : CycleState (["BTC"] : List String).length :=
  ⟨1, insert ⟨0, Nat.one_pos⟩ ∅,
    Function.update (fun _ => none) ⟨0, Nat.one_pos⟩ (some "Error: boom"), false⟩

/-- The cycle state after Wait has returned. -/
def exBarrierFinal : CycleState (["BTC"] : List String).length :=
  ⟨1, insert ⟨0, Nat.one_pos⟩ ∅,
    Function.update (fun _ => none) ⟨0, Nat.one_pos⟩ (some "Error: boom"), true⟩

/-! ## Helper lemmas -/

lemma skipWs_not_ws (c : Char) (cs : List Char)
    (h : ¬(c = ' ' ∨ c = '\t' ∨ c = '\n' ∨ c = '\r')) :
    skipWs (c :: cs) = c :: cs := by
  rw [skipWs, if_neg h]

lemma parseStringBody_plain (cs rest : List Char)
    (h : ∀ c ∈ cs, c ≠ '"' ∧ c ≠ '\\') :
    parseStringBody (cs ++ '"' :: rest) = some (cs, rest) := by
  induction cs with
  | nil => rfl
  | cons c cs ih =>
    have hc := h c (List.mem_cons_self c cs)
    rw [List.cons_append, parseStringBody]
    simp only [hc.1, hc.2, if_false]
    rw [ih fun x hx => h x (List.mem_cons_of_mem c hx)]

lemma parseElem_quote (s : String) (rest : List Char)
    (h : ∀ c ∈ s.data, c ≠ '"' ∧ c ≠ '\\') :
    parseElem ('"' :: (s.data ++ '"' :: rest)) = some (some s, rest) := by
  unfold parseElem
  rw [skipWs_not_ws _ _ (by decide)]
  show (match parseStringBody (s.data ++ '"' :: rest) with
    | some sr => some (some (String.mk sr.1), sr.2)
    | none => none) = some (some s, rest)
  rw [parseStringBody_plain _ _ h]

lemma parseElemsAux_encode (l : List String)
    (hplain : ∀ s ∈ l, ∀ c ∈ s.data, c ≠ '"' ∧ c ≠ '\\') :
    ∀ fuel, l.length ≤ fuel → l ≠ [] → ∀ rest,
      parseElemsAux fuel (encodeElems l ++ ']' :: rest) = some (l.map some, rest) := by
  induction l with
  | nil => exact fun fuel _ h rest => absurd rfl h
  | cons s ss ih =>
    intro fuel hfuel _ rest
    have hs := hplain s (List.mem_cons_self s ss)
    cases fuel with
    | zero => simp at hfuel
    | succ f =>
      cases ss with
      | nil =>
        have harg : encodeElems [s] ++ ']' :: rest =
            '"' :: (s.data ++ '"' :: ']' :: rest) := by
          simp [encodeElems, encodeElem]
        rw [harg, parseElemsAux, parseElem_quote s (']' :: rest) hs]
        show (match skipWs (']' :: rest) with
          | ',' :: rest2 =>
            match parseElemsAux f rest2 with
            | some esr => some ((some s) :: esr.1, esr.2)
            | none => none
          | ']' :: rest2 => some ([some s], rest2)
          | _ => none) = some ([s].map some, rest)
        rw [skipWs_not_ws _ _ (by decide)]
        rfl
      | cons t ts =>
        have harg : encodeElems (s :: t :: ts) ++ ']' :: rest =
            '"' :: (s.data ++ '"' :: ',' :: (encodeElems (t :: ts) ++ ']' :: rest)) := by
          simp [encodeElems, encodeElem]
        rw [harg, parseElemsAux,
          parseElem_quote s (',' :: (encodeElems (t :: ts) ++ ']' :: rest)) hs]
        show (match skipWs (',' :: (encodeElems (t :: ts) ++ ']' :: rest)) with
          | ',' :: rest2 =>
            match parseElemsAux f rest2 with
            | some esr => some ((some s) :: esr.1, esr.2)
            | none => none
          | ']' :: rest2 => some ([some s], rest2)
          | _ => none) = some ((s :: t :: ts).map some, rest)
        rw [skipWs_not_ws _ _ (by decide)]
        have hts : parseElemsAux f (encodeElems (t :: ts) ++ ']' :: rest) =
            some ((t :: ts).map some, rest) := by
          refine ih (fun x hx => hplain x (List.mem_cons_of_mem s hx)) f ?_
            (List.cons_ne_nil t ts) rest
          simpa using Nat.le_of_succ_le_succ hfuel
        show (match parseElemsAux f (encodeElems (t :: ts) ++ ']' :: rest) with
          | some esr => some ((some s) :: esr.1, esr.2)
          | none => none) = some ((s :: t :: ts).map some, rest)
        rw [hts]
        rfl

lemma length_le_encodeElems (l : List String) : l.length ≤ (encodeElems l).length := by
  induction l with
  | nil => exact Nat.le_refl 0
  | cons s ss ih =>
    cases ss with
    | nil => simp [encodeElems, encodeElem]
    | cons t ts =>
      have h1 : encodeElems (s :: t :: ts) = encodeElem s ++ ',' :: encodeElems (t :: ts) := rfl
      rw [h1]
      simp only [List.length_cons, List.length_append, List.length_cons]
      have h2 : (t :: ts).length ≤ (encodeElems (t :: ts)).length := ih
      simp only [List.length_cons] at h2
      have h3 : 1 ≤ (encodeElem s).length := by
        simp [encodeElem]
      omega

lemma jsonUnmarshal_marshal (l : List String)
    (hplain : ∀ s ∈ l, ∀ c ∈ s.data, c ≠ '"' ∧ c ≠ '\\') :
    jsonUnmarshalStringPtrArray (jsonMarshalStringList l) = some (l.map some) := by
  cases l with
  | nil => decide
  | cons s ss =>
    obtain ⟨u, hu⟩ : ∃ u, encodeElems (s :: ss) = '"' :: u := by
      cases ss <;> exact ⟨_, rfl⟩
    unfold jsonUnmarshalStringPtrArray
    have hdata : (jsonMarshalStringList (s :: ss)).data =
        '[' :: (encodeElems (s :: ss) ++ [']']) := rfl
    rw [hdata, skipWs_not_ws _ _ (by decide)]
    show (match skipWs (encodeElems (s :: ss) ++ [']']) with
      | ']' :: rest2 => if skipWs rest2 = [] then some [] else none
      | r =>
        match parseElemsAux (r.length + 1) r with
        | some er => if skipWs er.2 = [] then some er.1 else none
        | none => none) = some ((s :: ss).map some)
    rw [hu, List.cons_append, skipWs_not_ws _ _ (by decide)]
    show (match parseElemsAux (('"' :: (u ++ [']'])).length + 1) ('"' :: (u ++ [']'])) with
      | some er => if skipWs er.2 = [] then some er.1 else none
      | none => none) = some ((s :: ss).map some)
    rw [show ('"' :: (u ++ [']'])) = encodeElems (s :: ss) ++ ']' :: [] from by
      rw [hu, List.cons_append]]
    rw [parseElemsAux_encode (s :: ss) hplain _ ?_ (List.cons_ne_nil s ss) []]
    · rfl
    · have h1 : ss.length + 1 ≤ (encodeElems (s :: ss)).length := by
        simpa using length_le_encodeElems (s :: ss)
      simp only [List.length_append, List.length_cons]
      omega

lemma derefAll_map_some (l : List String) : derefAll (l.map some) = some l := by
  induction l with
  | nil => rfl
  | cons s ss ih =>
    rw [List.map_cons, derefAll, ih]

lemma dropWhile_append_nil (p : Char → Bool) (xs : List Char) (c : Char)
    (h : xs.dropWhile p = []) :
    (xs ++ [c]).dropWhile p = if p c then [] else [c] := by
  induction xs with
  | nil => simp [List.dropWhile_cons]
  | cons x xs ih =>
    rw [List.dropWhile_cons] at h
    by_cases hx : p x
    · simp only [hx, if_pos] at h
      simpa [List.dropWhile_cons, hx] using ih h
    · simp [hx] at h

lemma dropWhile_append_cons (p : Char → Bool) (xs : List Char) (c : Char)
    (h : xs.dropWhile p ≠ []) :
    (xs ++ [c]).dropWhile p = xs.dropWhile p ++ [c] := by
  induction xs with
  | nil => simp at h
  | cons x xs ih =>
    rw [List.dropWhile_cons] at h ⊢
    by_cases hx : p x
    · simp only [hx, if_pos] at h ⊢
      simpa [List.dropWhile_cons, hx] using ih h
    · simp [List.dropWhile_cons, hx]

lemma trimRightZeros_data_eq (l : List Char) :
    ((l.reverse.dropWhile fun c => c == '0').reverse) = stripTrailingZeros l := by
  induction l with
  | nil => rfl
  | cons c cs ih =>
    rw [stripTrailingZeros, List.reverse_cons]
    rcases h : cs.reverse.dropWhile (fun c => c == '0') with _ | ⟨y, ys⟩
    · rw [h] at ih
      simp only [List.reverse_nil] at ih
      rw [← ih, dropWhile_append_nil _ _ _ h]
      by_cases hc : c == '0' <;> simp [hc]
    · have hne : cs.reverse.dropWhile (fun c => c == '0') ≠ [] := by
        rw [h]; exact List.cons_ne_nil y ys
      rw [dropWhile_append_cons _ _ _ hne, List.reverse_append]
      rw [ih]
      rcases hs : stripTrailingZeros cs with _ | ⟨z, zs⟩
      · rw [hs] at ih
        exact absurd (List.reverse_eq_nil_iff.mp ih) hne
      · simp

lemma stripTrailingDot_eq (l : List Char) :
    stripTrailingDot l =
      if l.getLast? = some '.' then l.dropLast else l := by
  induction l with
  | nil => rfl
  | cons c cs ih =>
    cases cs with
    | nil =>
      by_cases hc : c = '.'
      · subst hc; simp [stripTrailingDot]
      · simp [stripTrailingDot, hc]
    | cons c2 cs2 =>
      rw [show stripTrailingDot (c :: c2 :: cs2) = c :: stripTrailingDot (c2 :: cs2) from rfl]
      rw [ih]
      rw [List.getLast?_cons_cons]
      by_cases h : (c2 :: cs2).getLast? = some '.'
      · simp only [h, if_pos]
        rw [List.dropLast_cons_of_ne_nil (List.cons_ne_nil c2 cs2)]
      · simp only [h, if_neg]
        split <;> rfl

lemma formatPrice_eq_spec (s : String) :
    formatPrice s = String.mk (stripTrailingDot (stripTrailingZeros s.data)) := by
  show (let p := trimRightZeros s
    if p.data.getLast? = some '.' then String.mk p.data.dropLast else p) = _
  have hdata : (trimRightZeros s).data = stripTrailingZeros s.data :=
    trimRightZeros_data_eq s.data
  rw [stripTrailingDot_eq]
  simp only [hdata]
  split
  · rfl
  · show trimRightZeros s = String.mk (stripTrailingZeros s.data)
    rw [← hdata]

lemma cycle_invariant (symbols : List String) (fetch : String → FetchOutcome)
    (s : CycleState symbols.length) (h : CycleReach symbols fetch s) :
    (∀ i ∈ s.completed,
      s.results i = some (updateLabel (symbols.get i) (fetch (symbols.get i))))
    ∧ (s.returned = true → s.completed = Finset.univ ∧ s.launched = symbols.length) := by
  induction h with
  | init =>
    refine ⟨fun i hi => absurd hi (Finset.not_mem_empty i), fun hr => ?_⟩
    exact (Bool.false_ne_true hr).elim
  | step s t hreach hstep ih =>
    cases hstep with
    | launch i hl hr =>
      refine ⟨ih.1, fun hret => ?_⟩
      have hret2 : s.returned = true := hret
      rw [hr] at hret2
      exact (Bool.false_ne_true hret2).elim
    | complete i hi hc =>
      refine ⟨fun j hj => ?_, fun hret => ?_⟩
      · rcases Finset.mem_insert.mp hj with hji | hjm
        · subst hji
          exact Function.update_same j _ s.results
        · have hne : j ≠ i := fun hji => hc (hji ▸ hjm)
          show Function.update s.results i _ j = _
          rw [Function.update_noteq hne]
          exact ih.1 j hjm
      · have huniv := ih.2 hret
        refine ⟨?_, huniv.2⟩
        show insert i s.completed = Finset.univ
        rw [huniv.1]
        exact Finset.insert_eq_self.mpr (Finset.mem_univ i)
    | ret hl hc hr =>
      refine ⟨ih.1, fun _ => ⟨?_, hl⟩⟩
      show s.completed = Finset.univ
      refine Finset.eq_univ_of_card _ ?_
      rw [hc, Fintype.card_fin]

/-! ## Claim theorems -/

/-- C1: the claim says the numeric formatting step leaves a raw price
string with no decimal point unchanged.  The code does not: the
TrimRight-based formatting of updateLabel trims the integer digits of
"100" down to "1", so the displayed text at this input is "BTC/USDT: 1". -/
theorem formatPrice_integer_trailing_zeros :
    formatPrice "100" = "1" ∧
    updateLabel "BTC" (.body "\x7b\"price\":\"100\"\x7d") = "BTC/USDT: 1" := by
  decide

/-- C2: the claim says a config file whose content is not a valid JSON
string array makes LoadSymbols surface an explicit parse error.  The code
does not: on the content "not json", loadSymbolsFromConfig discards the
Unmarshal error and returns an ok result carrying the empty list, never
the fail error channel. -/
theorem loadSymbols_malformed_silent (writeOk : Bool) :
    (loadSymbolsFromConfig (.ok "not json") writeOk).result = .ok []
    ∧ ∀ msg, (loadSymbolsFromConfig (.ok "not json") writeOk).result ≠ .fail msg := by
  refine ⟨rfl, fun msg h => ?_⟩
  exact LoadResult.noConfusion h

/-- C3: the claim says the symbol list returned by LoadSymbols is non-empty
on every outcome, with the default list substituted when the file is
malformed.  The code violates this on a malformed file: it returns the
empty list, not defaultSymbols. -/
theorem loadSymbols_malformed_empty (writeOk : Bool) :
    (loadSymbolsFromConfig (.ok "not json") writeOk).result = .ok []
    ∧ (loadSymbolsFromConfig (.ok "not json") writeOk).result ≠ .ok defaultSymbols := by
  refine ⟨rfl, fun h => ?_⟩
  have h2 : ([] : List String) = defaultSymbols := LoadResult.ok.inj h
  exact absurd h2 (by decide)

/-- C4: when no config file exists, loadSymbolsFromConfig writes a new file
whose content is exactly the JSON array of BTC, ETH and SOL and returns
that same default list; a failed write is non-fatal and the default list is
still returned. -/
theorem loadSymbols_bootstrap_default (writeOk : Bool) :
    (loadSymbolsFromConfig .notExist writeOk).result = .ok defaultSymbols
    ∧ defaultSymbols = ["BTC", "ETH", "SOL"]
    ∧ (writeOk = true →
        (loadSymbolsFromConfig .notExist writeOk).written =
          some "[\"BTC\",\"ETH\",\"SOL\"]")
    ∧ (writeOk = false →
        (loadSymbolsFromConfig .notExist writeOk).result = .ok defaultSymbols) := by
  refine ⟨rfl, rfl, fun h => ?_, fun _ => rfl⟩
  subst h
  decide

theorem loadSymbols_bootstrap_default_witness :
    (loadSymbolsFromConfig .notExist true).written = some "[\"BTC\",\"ETH\",\"SOL\"]"
    ∧ (loadSymbolsFromConfig .notExist false).result = .ok defaultSymbols :=
  ⟨(loadSymbols_bootstrap_default true).2.2.1 rfl,
   (loadSymbols_bootstrap_default false).2.2.2 rfl⟩

/-- C5 counterexample: a response body that is a well-formed JSON object
without a price field is a fetch failure in the claim's sense, yet the
result is not an error string: it is the symbol prefix followed by an empty
price. -/
theorem updateLabel_missing_price_not_error :
    updateLabel "ETH" (.body "\x7b\"foo\":\"bar\"\x7d") = "ETH/USDT: "
    ∧ (updateLabel "ETH" (.body "\x7b\"foo\":\"bar\"\x7d")).data.take 7 ≠
        ("Error: " : String).data := by
  decide

/-- C5 amended: on a transport error or an undecodable body the result for
a symbol is an error string with the Error-colon-space prefix; a body that
decodes to an object without a price field instead yields the symbol prefix
with an empty trimmed price (the HTTP status is never checked); and each
position of the refresh output depends only on that symbol's own fetch
outcome, so one symbol's failure never affects another's result. -/
theorem updatePrice_error_containment (symbols : List String)
    (fetch fetch' : String → FetchOutcome) (i : Nat) (hi : i < symbols.length)
    (hagree : fetch symbols[i] = fetch' symbols[i]) :
    (updatePrice symbols fetch)[i]? =
      some (symbols[i], updateLabel symbols[i] (fetch symbols[i]))
    ∧ (updatePrice symbols fetch)[i]? = (updatePrice symbols fetch')[i]?
    ∧ (∀ msg, updateLabel symbols[i] (.getError msg) = "Error: " ++ msg)
    ∧ (∀ body, jsonDecodeStringMap body = none →
        updateLabel symbols[i] (.body body) = "Error: " ++ jsonDecodeErrorText) := by
  have key : ∀ g : String → FetchOutcome, (updatePrice symbols g)[i]? =
      some (symbols[i], updateLabel symbols[i] (g symbols[i])) := by
    intro g
    rw [updatePrice, List.getElem?_map, List.getElem?_eq_getElem hi]
    rfl
  refine ⟨key fetch, ?_, fun msg => rfl, fun body hb => ?_⟩
  · rw [key fetch, key fetch', hagree]
  · simp only [updateLabel]
    rw [hb]

theorem updatePrice_error_containment_witness :
    (updatePrice ["BTC", "ETH"] exFetch)[0]? = some ("BTC", "BTC/USDT: 50001")
    ∧ (updatePrice ["BTC", "ETH"] exFetch)[1]? = some ("ETH", "Error: timeout") := by
  have h0 := updatePrice_error_containment ["BTC", "ETH"] exFetch exFetch 0
    (by decide) rfl
  have h1 := updatePrice_error_containment ["BTC", "ETH"] exFetch exFetch 1
    (by decide) rfl
  refine ⟨?_, ?_⟩
  · rw [h0.1]; decide
  · rw [h1.1]; decide

/-- C6: a config file holding a valid JSON array of strings makes
loadSymbolsFromConfig return exactly that sequence of symbols, in file
order, duplicates preserved: parsing what the marshaller writes yields the
original list. -/
theorem loadSymbols_round_trip (l : List String) (writeOk : Bool)
    (hplain : ∀ s ∈ l, ∀ c ∈ s.data, c ≠ '"' ∧ c ≠ '\\') :
    (loadSymbolsFromConfig (.ok (jsonMarshalStringList l)) writeOk).result = .ok l := by
  unfold loadSymbolsFromConfig
  have hp : parseSymbolsFromConfig (jsonMarshalStringList l) = l.map some := by
    unfold parseSymbolsFromConfig
    rw [jsonUnmarshal_marshal l hplain]
    rfl
  show (match derefAll (parseSymbolsFromConfig (jsonMarshalStringList l)) with
    | some strs => (⟨.ok strs, none, []⟩ : LoadEffects)
    | none => ⟨.panic, none, []⟩).result = .ok l
  rw [hp, derefAll_map_some l]

theorem loadSymbols_round_trip_witness :
    (loadSymbolsFromConfig (.ok "[\"TRX\",\"PEPE\",\"SOL\",\"BNB\"]") true).result =
      .ok ["TRX", "PEPE", "SOL", "BNB"]
    ∧ (loadSymbolsFromConfig (.ok "[\"TRX\",\"TRX\"]") true).result =
      .ok ["TRX", "TRX"] := by
  refine ⟨?_, ?_⟩
  · have hm : jsonMarshalStringList ["TRX", "PEPE", "SOL", "BNB"] =
        "[\"TRX\",\"PEPE\",\"SOL\",\"BNB\"]" := by decide
    rw [← hm]
    exact loadSymbols_round_trip ["TRX", "PEPE", "SOL", "BNB"] true (by decide)
  · have hm : jsonMarshalStringList ["TRX", "TRX"] = "[\"TRX\",\"TRX\"]" := by decide
    rw [← hm]
    exact loadSymbols_round_trip ["TRX", "TRX"] true (by decide)

/-- C7: for a raw price string containing a decimal point, the formatting
step strips all trailing zero characters and then a trailing decimal point
if one remains, and the displayed success result is exactly the symbol,
the pair suffix, and the trimmed price. -/
theorem updateLabel_fractional_trim (sym price body : String)
    (hdot : '.' ∈ price.data)
    (hdec : jsonDecodeStringMap body = some [("price", price)]) :
    updateLabel sym (.body body) =
      sym ++ "/USDT: " ++ String.mk (stripTrailingDot (stripTrailingZeros price.data))
    ∧ formatPrice "123.45000" = "123.45"
    ∧ formatPrice "100.00000" = "100"
    ∧ formatPrice "0.00010000" = "0.0001" := by
  refine ⟨?_, by decide, by decide, by decide⟩
  simp only [updateLabel]
  rw [hdec]
  simp [mapGet, formatPrice_eq_spec]

theorem updateLabel_fractional_trim_witness :
    '.' ∈ ("123.45000" : String).data ∧
    updateLabel "BTC" (.body "\x7b\"price\":\"123.45000\"\x7d") = "BTC/USDT: 123.45" := by
  refine ⟨by decide, ?_⟩
  have h := updateLabel_fractional_trim "BTC" "123.45000"
    "\x7b\"price\":\"123.45000\"\x7d" (by decide) (by decide)
  rw [h.1]
  decide

/-- C8: when the config file exists but cannot be opened for a reason other
than absence, loadSymbolsFromConfig logs the error and returns the default
symbol list with a nil error, writing nothing: startup is never blocked by
a config read failure. -/
theorem loadSymbols_read_error_defaults (msg : String) (writeOk : Bool) :
    (loadSymbolsFromConfig (.otherError msg) writeOk).result = .ok defaultSymbols
    ∧ (loadSymbolsFromConfig (.otherError msg) writeOk).written = none
    ∧ (loadSymbolsFromConfig (.otherError msg) writeOk).logs =
        ["Error opening config file: " ++ msg]
    ∧ ∀ m, (loadSymbolsFromConfig (.otherError msg) writeOk).result ≠ .fail m :=
  ⟨rfl, rfl, rfl, fun m h => LoadResult.noConfusion h⟩

/-- C9: in any interleaved execution of one refresh cycle, once the Wait
barrier of updatePrice has returned, all goroutines have been launched,
one per tracked symbol, and every one of them has completed and written its
own updateLabel output: no return with work still in flight. -/
theorem updatePrice_barrier (symbols : List String) (fetch : String → FetchOutcome)
    (s : CycleState symbols.length) (h : CycleReach symbols fetch s)
    (hret : s.returned = true) :
    s.launched = symbols.length
    ∧ ∀ i : Fin symbols.length,
        s.results i = some (updateLabel (symbols.get i) (fetch (symbols.get i))) := by
  have hinv := cycle_invariant symbols fetch s h
  have huniv := hinv.2 hret
  exact ⟨huniv.2, fun i => hinv.1 i (huniv.1 ▸ Finset.mem_univ i)⟩

theorem updatePrice_barrier_witness :
    CycleReach ["BTC"] exBarrierFetch exBarrierFinal
    ∧ exBarrierFinal.launched = 1
    ∧ exBarrierFinal.results ⟨0, Nat.one_pos⟩ = some "Error: boom" := by
  have h1 : CycleStep ["BTC"] exBarrierFetch
      (initCycle (["BTC"] : List String).length) exBarrierS1 :=
    CycleStep.launch (initCycle (["BTC"] : List String).length) ⟨0, Nat.one_pos⟩ rfl rfl
  have h2 : CycleStep ["BTC"] exBarrierFetch exBarrierS1 exBarrierS2 :=
    CycleStep.complete exBarrierS1 ⟨0, Nat.one_pos⟩ Nat.one_pos (by decide)
  have h3 : CycleStep ["BTC"] exBarrierFetch exBarrierS2 exBarrierFinal :=
    CycleStep.ret exBarrierS2 rfl (by decide) rfl
  have hreach : CycleReach ["BTC"] exBarrierFetch exBarrierFinal :=
    CycleReach.step _ _
      (CycleReach.step _ _ (CycleReach.step _ _ CycleReach.init h1) h2) h3
  have h := updatePrice_barrier ["BTC"] exBarrierFetch exBarrierFinal hreach rfl
  refine ⟨hreach, h.1, ?_⟩
  rw [h.2 ⟨0, Nat.one_pos⟩]
  rfl

/-- C10: a well-formed config file holding a valid JSON array with a null
element makes loadSymbolsFromConfig dereference a nil string pointer and
panic instead of returning a list or an error. -/
theorem loadSymbols_null_element_panics (writeOk : Bool) :
    (loadSymbolsFromConfig (.ok "[\"BTC\", null]") writeOk).result = .panic := rfl
